import Mathlib

/-!
Verification of the fsak SOCKS5-over-HTTP tunnel (github.com/paulGUZU/fsak).

Shallow embedding of the Go sources:
* the upload frame codec: client `buildUploadChunk` (internal/client/transport)
  and server `parseUploadFrame` (internal/server/handler.go);
* the server upload session engine `handleUpload` (ordered reassembly,
  duplicate suppression, the target-dial race);
* the CTR stream cipher `XORCTRInPlace` and key derivation `DeriveKey`
  (pkg/crypto/crypto.go), with AES and SHA-256 spelled out;
* the client address pool `PickBest` (internal/client/pool.go);
* the adaptive chunk sizer and `newSessionID` (internal/client/transport).

Bytes are `Nat` values below 256, byte strings are `List Nat`; machine
integers are `Nat`/`Int` with explicit `% 2 ^ w` where overflow matters.
Fallible Go functions return `Option`.
-/

namespace Fsak

/-! ## Byte-order helpers (encoding/binary, big-endian) -/

/-- `binary.BigEndian.Uint16` of two bytes. -/
def beUint16 (b0 b1 : Nat) : Nat := b0 * 256 + b1

/-- `binary.BigEndian.Uint32` of four bytes. -/
def beUint32 (b0 b1 b2 b3 : Nat) : Nat := ((b0 * 256 + b1) * 256 + b2) * 256 + b3

/-- `binary.BigEndian.PutUint16`: the two big-endian bytes of `n % 2 ^ 16`. -/
def putUint16 (n : Nat) : List Nat := [n / 256 % 256, n % 256]

/-- `binary.BigEndian.PutUint32`: the four big-endian bytes of `n % 2 ^ 32`. -/
def putUint32 (n : Nat) : List Nat :=
  [n / 16777216 % 256, n / 65536 % 256, n / 256 % 256, n % 256]

/-- Big-endian bytes (length `k`) of `n % 256 ^ k`. -/
def natToBEBytes (k n : Nat) : List Nat :=
  (List.range k).map (fun i => n / 256 ^ (k - 1 - i) % 256)

/-- A big-endian byte list read back as a number. -/
def beBytesToNat (l : List Nat) : Nat := l.foldl (fun acc b => acc * 256 + b) 0

/-! ## Go's `strings.TrimSpace` emptiness test

`parseUploadFrame` rejects a target whose `strings.TrimSpace` is empty, i.e.
a target all of whose decoded runes satisfy `unicode.IsSpace`.  The bytes are
decoded as UTF-8 exactly as Go does (an invalid byte decodes to U+FFFD and
consumes one byte). -/

/-- Is `b` a UTF-8 continuation byte (`0x80..0xBF`)? -/
def utf8Cont (b : Nat) : Bool := 128 ≤ b && b ≤ 191

/-- One step of Go's UTF-8 decoding: the rune starting at byte `b` with the
following bytes `rest`, and how many bytes of `rest` the rune consumed
(0 to 3).  Invalid sequences yield U+FFFD consuming the single byte `b`,
as `utf8.DecodeRuneInString` does. -/
def utf8Step (b : Nat) (rest : List Nat) : Nat × Nat :=
  if b < 128 then (b, 0)
  else if 194 ≤ b && b ≤ 223 then
    match rest with
    | b1 :: _ =>
      if utf8Cont b1 then ((b % 32) * 64 + b1 % 64, 1) else (65533, 0)
    | [] => (65533, 0)
  else if 224 ≤ b && b ≤ 239 then
    match rest with
    | b1 :: b2 :: _ =>
      let lo := if b = 224 then 160 else 128
      let hi := if b = 237 then 159 else 191
      if (lo ≤ b1 && b1 ≤ hi) && utf8Cont b2 then
        (((b % 16) * 64 + b1 % 64) * 64 + b2 % 64, 2)
      else (65533, 0)
    | _ => (65533, 0)
  else if 240 ≤ b && b ≤ 244 then
    match rest with
    | b1 :: b2 :: b3 :: _ =>
      let lo := if b = 240 then 144 else 128
      let hi := if b = 244 then 143 else 191
      if ((lo ≤ b1 && b1 ≤ hi) && utf8Cont b2) && utf8Cont b3 then
        ((((b % 8) * 64 + b1 % 64) * 64 + b2 % 64) * 64 + b3 % 64, 3)
      else (65533, 0)
    | _ => (65533, 0)
  else (65533, 0)

/-- Decode a byte list into its runes, Go style.  The fuel is the number of
bytes left; each step consumes at least one byte, so `l.length` fuel is
always enough. -/
def utf8RunesAux : Nat → List Nat → List Nat
  | 0, _ => []
  | _, [] => []
  | fuel + 1, b :: rest =>
    let s := utf8Step b rest
    s.1 :: utf8RunesAux fuel (rest.drop s.2)

/-- The rune sequence of a Go string given by its UTF-8 bytes. -/
def utf8Runes (l : List Nat) : List Nat := utf8RunesAux l.length l

/-- `unicode.IsSpace` on a rune (White_Space property). -/
def goIsSpaceRune (r : Nat) : Bool :=
  (9 ≤ r && r ≤ 13) || r = 32 || r = 133 || r = 160 || r = 5760 ||
  (8192 ≤ r && r ≤ 8202) || r = 8232 || r = 8233 || r = 8239 || r = 8287 || r = 12288

/-- `strings.TrimSpace(s) == ""`: every rune of `s` is white space. -/
def goTrimSpaceEmpty (l : List Nat) : Bool := (utf8Runes l).all goIsSpaceRune

/-! ## The upload frame codec -/

/-- `uploadFlagFirst` (client and server agree on the value 1). -/
def uploadFlagFirst : Nat := 1

/-- `uploadFrameMinHeader` / `uploadFrameHeader`: `[seq(4)][flags(1)]`. -/
def uploadFrameHeader : Nat := 5

/-- The parsed fields of an upload frame
(`parseUploadFrame`'s non-error results). -/
structure UploadFrame where
  seq : Nat
  isFirst : Bool
  target : List Nat
  payload : List Nat
deriving Repr, DecidableEq

/-- Server `parseUploadFrame` (internal/server/handler.go:214-244) on the
decrypted frame bytes.  `none` is the error return.  The byte reads
`frame[0:4]`, `frame[4]`, `frame[offset:offset+2]` and the slices mirror the
Go indexing; Go's `targetLen < 0` test can never fire (`targetLen` comes from
`Uint16`) and is dropped, and the final `offset > len(frame)` test is kept
even though no path reaches it with `offset` out of range. -/
def parseUploadFrame (frame : List Nat) : Option UploadFrame :=
  if frame.length < uploadFrameHeader then none
  else
    let seq := beUint32 (frame.getD 0 0) (frame.getD 1 0) (frame.getD 2 0) (frame.getD 3 0)
    let flags := frame.getD 4 0
    let isFirst := flags &&& uploadFlagFirst ≠ 0
    if isFirst then
      if frame.length < uploadFrameHeader + 2 then none
      else
        let targetLen := beUint16 (frame.getD 5 0) (frame.getD 6 0)
        if frame.length < uploadFrameHeader + 2 + targetLen then none
        else
          let target := (frame.drop (uploadFrameHeader + 2)).take targetLen
          if goTrimSpaceEmpty target then none
          else if uploadFrameHeader + 2 + targetLen > frame.length then none
          else some ⟨seq, true, target, frame.drop (uploadFrameHeader + 2 + targetLen)⟩
    else
      if uploadFrameHeader > frame.length then none
      else some ⟨seq, false, [], frame.drop uploadFrameHeader⟩

/-- The plaintext record built by client `buildUploadChunk`
(internal/client/transport, lines 213-251) before encryption:
`seq` as 4 big-endian bytes, a flags byte (bit 0 = first), when `first` the
2-byte big-endian `uint16(len(target))` then the target bytes, then the data.
The Go `seq` variable is a `uint32`, hence the `% 2 ^ 32` in `putUint32`. -/
def buildUploadPlain (seq : Nat) (first : Bool) (target data : List Nat) : List Nat :=
  putUint32 seq ++ [if first then uploadFlagFirst else 0] ++
    (if first then putUint16 target.length ++ target else []) ++ data

/-! ## The server session upload engine (`handleUpload`)

The session state of internal/server/handler.go (`Session`) restricted to
the fields `handleUpload` touches.  `targetConn` is whether a target
connection is installed, and `written` records the bytes written to it (the
model assumes target writes succeed; write failure ends the session in Go
and is outside these claims).  `pendingUpload` is Go's `map[uint32][]byte`
as an association list whose keys are kept duplicate-free (entries are only
inserted when absent, as in the source). -/

structure SessionSt where
  nextUploadSeq : Nat
  pendingUpload : List (Nat × List Nat)
  targetConn : Bool
  closed : Bool
  written : List Nat
deriving Repr, DecidableEq

/-- `NewSession`: fresh state. -/
def initSession : SessionSt :=
  { nextUploadSeq := 0, pendingUpload := [], targetConn := false,
    closed := false, written := [] }

/-- Lookup in the pending map (`s.pendingUpload[seq]`). -/
def pendLookup : List (Nat × List Nat) → Nat → Option (List Nat)
  | [], _ => none
  | (k, v) :: rest, q => if q = k then some v else pendLookup rest q

/-- Deletion from the pending map (`delete(s.pendingUpload, seq)`). -/
def pendErase : List (Nat × List Nat) → Nat → List (Nat × List Nat)
  | [], _ => []
  | (k, v) :: rest, q => if q = k then rest else (k, v) :: pendErase rest q

/-- The drain loop of `handleUpload` (handler.go:183-209): while a target
connection exists and `pendingUpload[nextUploadSeq]` is present, pop it,
advance the cursor and write the bytes (an empty payload is skipped by the
write, which appends nothing either way).  Each iteration deletes one
pending entry, so `pendingUpload.length` fuel always runs the loop to its
exit condition. -/
def drainAux : Nat → SessionSt → SessionSt
  | 0, s => s
  | fuel + 1, s =>
    if s.targetConn then
      match pendLookup s.pendingUpload s.nextUploadSeq with
      | some data =>
        drainAux fuel
          { s with nextUploadSeq := s.nextUploadSeq + 1,
                   pendingUpload := pendErase s.pendingUpload s.nextUploadSeq,
                   written := s.written ++ data }
      | none => s
    else s

/-- The drain loop, with enough fuel for its pending map. -/
def drainSession (s : SessionSt) : SessionSt := drainAux s.pendingUpload.length s

/-- `handleUpload`'s HTTP outcome for a parsed frame. -/
inductive UpStatus where
  | accepted      -- 200
  | sessionGone   -- 410 (session closed)
  | dialFailed    -- 502 (dial failed)
deriving Repr, DecidableEq

/-- `handleUpload` (handler.go:143-211) from the parsed frame on: the
closed check, the duplicate check (`seq < nextUploadSeq` → 200, no further
action), the insert-if-absent into `pendingUpload`, the dial decision
(`targetConn == nil && isFirst`), the dial (its success is the `dialOk`
input) and the drain loop.  Requests are serialized by the session mutex, so
this is the per-request state transformation; the source's re-check of
`targetConn` after re-acquiring the lock is kept, while its re-check of
`closed` there cannot fire between the two lock sections of one serialized
request and has no branch here. -/
def processUpload (s : SessionSt) (seq : Nat) (isFirst : Bool)
    (payload : List Nat) (dialOk : Bool) : UpStatus × SessionSt :=
  if s.closed then (.sessionGone, s)
  else if seq < s.nextUploadSeq then (.accepted, s)
  else
    let s1 : SessionSt :=
      if (pendLookup s.pendingUpload seq).isNone then
        { s with pendingUpload := (seq, payload) :: s.pendingUpload }
      else s
    let needDial := !s1.targetConn && isFirst
    if needDial then
      if dialOk then
        let s2 : SessionSt := if s1.targetConn then s1 else { s1 with targetConn := true }
        (.accepted, drainSession s2)
      else (.dialFailed, s1)
    else (.accepted, drainSession s1)

/-- A session fed the client's frames for the given seqs in the given
order: frame `k` carries the FIRST flag exactly when `k = 0` (as the client
encoder sets it) and payload `payload k`; every dial succeeds. -/
def runUploads (order : List Nat) (payload : Nat → List Nat) (s : SessionSt) : SessionSt :=
  order.foldl (fun s k => (processUpload s k (k == 0) (payload k) true).2) s

/-- The concatenation of the first `n` payloads in seq order. -/
def concatPayloads (payload : Nat → List Nat) (n : Nat) : List Nat :=
  ((List.range n).map payload).flatten

/-- The state invariant of a session that has been fed the client frames of
the seqs in `done` (in any order): before the FIRST frame (seq 0) arrives no
connection exists and everything is parked in `pendingUpload`; once it has
arrived, `nextUploadSeq` sits just past the contiguous prefix of `done`,
exactly the payloads below it have been written, in seq order, and the rest
of `done` is parked. -/
def UploadInv (payload : Nat → List Nat) (done : List Nat) (s : SessionSt) : Prop :=
  s.closed = false ∧
  (s.pendingUpload.map Prod.fst).Nodup ∧
  (s.targetConn = true ↔ 0 ∈ done) ∧
  (if s.targetConn then
      (∀ k, k < s.nextUploadSeq → k ∈ done) ∧ s.nextUploadSeq ∉ done ∧
      s.written = concatPayloads payload s.nextUploadSeq ∧
      ∀ q, pendLookup s.pendingUpload q =
        if q ∈ done ∧ s.nextUploadSeq ≤ q then some (payload q) else none
    else
      s.nextUploadSeq = 0 ∧ s.written = [] ∧
      ∀ q, pendLookup s.pendingUpload q =
        if q ∈ done then some (payload q) else none)

/-! ## The target-dial race (`handleUpload`, handler.go:159-181)

Each upload request that observed `targetConn == nil && isFirst` dials its
own connection and then runs the installation critical section under the
session mutex.  The mutex makes the sections atomic, so a concurrent
execution is an ordering of them.  Connections are identified by numbers;
`closedConns` records the dials that were closed as race losers (or because
the session had closed). -/

structure DialRace where
  targetConn : Option Nat
  closed : Bool
  closedConns : List Nat
deriving Repr, DecidableEq

/-- The installation critical section for a racer holding fresh connection
`c`: if the session closed meanwhile, close `c`; if no connection is
installed, install `c`; otherwise another racer won and `c` is closed. -/
def installConn (st : DialRace) (c : Nat) : DialRace :=
  if st.closed then { st with closedConns := c :: st.closedConns }
  else
    match st.targetConn with
    | none => { st with targetConn := some c }
    | some _ => { st with closedConns := c :: st.closedConns }

/-- All racers' critical sections, in the order the mutex granted them. -/
def runInstalls (st : DialRace) (conns : List Nat) : DialRace :=
  conns.foldl installConn st

/-! ## The adaptive chunk sizer (internal/client/transport, lines 352-406)

`cur`, `min`, `max` are Go `int`s (64-bit); additions are modelled with
64-bit two's-complement wrap and `/= 2` with Go's truncated division. -/

/-- Two's-complement wrap of an integer into `[-2 ^ 63, 2 ^ 63)`. -/
def wrap64 (x : Int) : Int := (x + 2 ^ 63) % 2 ^ 64 - 2 ^ 63

structure adaptiveChunkSizer where
  cur : Int
  min : Int
  max : Int
deriving Repr, DecidableEq

/-- `newAdaptiveChunkSizer(initial, min, max)`: clamp `initial` into the
bounds (below first, then above), as the source does. -/
def newAdaptiveChunkSizer (initial mn mx : Int) : adaptiveChunkSizer :=
  let i1 := if initial < mn then mn else initial
  let i2 := if i1 > mx then mx else i1
  { cur := i2, min := mn, max := mx }

/-- `Next()`: the current chunk size. -/
def sizerNext (s : adaptiveChunkSizer) : Int := s.cur

/-- `Observe(rtt, ok)`.  `rtt` is a `time.Duration` in nanoseconds.  On
failure `cur /= 2` then only the lower clamp runs (as in the source); on
success the switch adjusts `cur` (first matching case only) and both clamps
run. -/
def sizerObserve (s : adaptiveChunkSizer) (rtt : Int) (ok : Bool) : adaptiveChunkSizer :=
  if !ok then
    let c := Int.tdiv s.cur 2
    let c := if c < s.min then s.min else c
    { s with cur := c }
  else
    let c :=
      if rtt < 180 * 1000000 then wrap64 (s.cur + 16 * 1024)
      else if rtt > 1200 * 1000000 then Int.tdiv s.cur 2
      else if rtt > 700 * 1000000 then wrap64 (s.cur - 8 * 1024)
      else s.cur
    let c := if c < s.min then s.min else c
    let c := if c > s.max then s.max else c
    { s with cur := c }

/-- A finite sequence of `Observe` calls. -/
def sizerRun (s : adaptiveChunkSizer) (obs : List (Int × Bool)) : adaptiveChunkSizer :=
  obs.foldl (fun s o => sizerObserve s o.1 o.2) s

/-! ## The address pool selection (`PickBest`, internal/client/pool.go:194-223)

`sortedIPs` is the healthy list sorted by quality, `candidates` the known
candidate keys in Go's (unspecified) map iteration order, `configAddrs`
the configured entries.  `r` is the value drawn by `rand.Intn(topN)`
(modelled as `r % topN`, which is the identity on the uniform draw
`r < topN`). -/
def PickBest (sortedIPs candidates configAddrs : List String) (r : Nat) : String :=
  if sortedIPs.length = 0 then
    match candidates with
    | c :: _ => c
    | [] =>
      match configAddrs with
      | a :: _ => a
      | [] => "127.0.0.1"
  else
    let topN := if sortedIPs.length < 3 then sortedIPs.length else 3
    (sortedIPs.getD (r % topN) "")

/-! ## AES (crypto/aes) and the CTR stream (crypto/cipher)

`XORCTRInPlace` (pkg/crypto/crypto.go:149-159) builds an AES cipher from the
key and XORs the data with the CTR keystream.  AES is spelled out from
FIPS 197 (the definition Go's `crypto/aes` implements): the S-box through
GF(2^8) inversion and the affine map, the key schedule for any of the three
key sizes, and the round functions on the 16-byte state in the input byte
order (state byte `r + 4 c`). -/

/-- GF(2^8) doubling (`xtime`): shift, reduce by the AES polynomial 0x11B. -/
def xtime (b : Nat) : Nat := if b < 128 then b * 2 else (b * 2) ^^^ 283

/-- `xtime` iterated: multiplication by x^n in GF(2^8). -/
def xtimeN : Nat → Nat → Nat
  | 0, b => b
  | n + 1, b => xtime (xtimeN n b)

/-- GF(2^8) multiplication: sum of `a * x ^ i` over the set bits of `b`. -/
def gfMul (a b : Nat) : Nat :=
  (List.range 8).foldl (fun acc i => if (b >>> i) &&& 1 = 1 then acc ^^^ xtimeN i a else acc) 0

/-- GF(2^8) multiplicative inverse (0 for 0), by search. -/
def gfInv (b : Nat) : Nat :=
  ((List.range 256).find? (fun c => gfMul b c == 1)).getD 0

/-- Rotate a byte left by `n`. -/
def rotl8 (x n : Nat) : Nat := ((x <<< n) ||| (x >>> (8 - n))) % 256

/-- The AES S-box: affine map of the GF(2^8) inverse. -/
def sbox (b : Nat) : Nat :=
  let i := gfInv (b % 256)
  i ^^^ rotl8 i 1 ^^^ rotl8 i 2 ^^^ rotl8 i 3 ^^^ rotl8 i 4 ^^^ 99

/-- The S-box on each byte of a 32-bit word. -/
def subWord (w : Nat) : Nat :=
  sbox ((w >>> 24) % 256) * 16777216 + sbox ((w >>> 16) % 256) * 65536 +
    sbox ((w >>> 8) % 256) * 256 + sbox (w % 256)

/-- Rotate a 32-bit word left by one byte. -/
def rotWord (w : Nat) : Nat := ((w <<< 8) ||| (w >>> 24)) % 2 ^ 32

/-- The round constant word `Rcon[j] = x ^ (j-1) << 24`. -/
def rconW (j : Nat) : Nat := xtimeN (j - 1) 1 <<< 24

/-- The AES key schedule: `4 * (nr + 1)` words from an `nk`-word key
(`nk = 4, 6, 8`; `nr = nk + 6`). -/
def keyWords (key : List Nat) : List Nat :=
  let nk := key.length / 4
  let nr := nk + 6
  let w0 := (List.range nk).map (fun i => beBytesToNat ((key.drop (4 * i)).take 4))
  (List.range (4 * (nr + 1) - nk)).foldl (fun w j =>
    let i := j + nk
    let temp := w.getD (i - 1) 0
    let temp :=
      if i % nk = 0 then subWord (rotWord temp) ^^^ rconW (i / nk)
      else if 6 < nk && i % nk = 4 then subWord temp
      else temp
    w ++ [w.getD (i - nk) 0 ^^^ temp]) w0

/-- The 16 bytes of round key `r` (state order: byte `i` is byte `i % 4`
of word `4 r + i / 4`). -/
def roundKeyBytes (w : List Nat) (r : Nat) : List Nat :=
  (List.range 16).map (fun i => (w.getD (4 * r + i / 4) 0) >>> (24 - 8 * (i % 4)) % 256)

/-- AddRoundKey. -/
def addRoundKey (st rk : List Nat) : List Nat := List.zipWith (· ^^^ ·) st rk

/-- SubBytes. -/
def subBytesState (st : List Nat) : List Nat := st.map sbox

/-- ShiftRows on the flat state: row `r = i % 4` of column `c = i / 4`
comes from column `(c + r) % 4`. -/
def shiftRowsState (st : List Nat) : List Nat :=
  (List.range 16).map (fun i => st.getD (i % 4 + 4 * ((i / 4 + i % 4) % 4)) 0)

/-- MixColumns on one column. -/
def mixColumn (a0 a1 a2 a3 : Nat) : List Nat :=
  [xtime a0 ^^^ (xtime a1 ^^^ a1) ^^^ a2 ^^^ a3,
   a0 ^^^ xtime a1 ^^^ (xtime a2 ^^^ a2) ^^^ a3,
   a0 ^^^ a1 ^^^ xtime a2 ^^^ (xtime a3 ^^^ a3),
   (xtime a0 ^^^ a0) ^^^ a1 ^^^ a2 ^^^ xtime a3]

/-- MixColumns on the state. -/
def mixColumnsState (st : List Nat) : List Nat :=
  ((List.range 4).map (fun c =>
    mixColumn (st.getD (4 * c) 0) (st.getD (4 * c + 1) 0)
      (st.getD (4 * c + 2) 0) (st.getD (4 * c + 3) 0))).flatten

/-- The AES block encryption (any key size 16/24/32 bytes). -/
def aesEncryptBlock (key block : List Nat) : List Nat :=
  let nr := key.length / 4 + 6
  let w := keyWords key
  let st0 := addRoundKey block (roundKeyBytes w 0)
  let stN := (List.range (nr - 1)).foldl
    (fun st r =>
      addRoundKey (mixColumnsState (shiftRowsState (subBytesState st))) (roundKeyBytes w (r + 1)))
    st0
  addRoundKey (shiftRowsState (subBytesState stN)) (roundKeyBytes w nr)

/-- The `i`-th CTR counter block: the IV incremented `i` times as a
big-endian 128-bit counter (Go's `cipher.NewCTR` increments byte-wise from
the end with carry, i.e. mod `2 ^ 128`). -/
def ctrBlock (iv : List Nat) (i : Nat) : List Nat :=
  natToBEBytes 16 ((beBytesToNat iv + i) % 2 ^ 128)

/-- Byte `i` of the CTR keystream. -/
def ctrKeystreamByte (key iv : List Nat) (i : Nat) : Nat :=
  (aesEncryptBlock key (ctrBlock iv (i / 16))).getD (i % 16) 0

/-- The first `n` bytes of the CTR keystream. -/
def ctrKeystream (key iv : List Nat) (n : Nat) : List Nat :=
  (List.range n).map (ctrKeystreamByte key iv)

/-- `XORKeyStream(data, data)`: XOR the data with the keystream. -/
def ctrXor (key iv data : List Nat) : List Nat :=
  List.zipWith (· ^^^ ·) data (ctrKeystream key iv data.length)

/-- `XORCTRInPlace(key, iv, data)` (pkg/crypto/crypto.go:149-159): reject an
IV that is not one AES block; `aes.NewCipher` rejects a key that is not
16, 24 or 32 bytes; otherwise XOR the buffer with the CTR stream.  In the
program the key is the 32-byte `DeriveKey` output.  `none` is the error
return, `some` carries the transformed buffer. -/
def XORCTRInPlace (key iv data : List Nat) : Option (List Nat) :=
  if iv.length ≠ 16 then none
  else if key.length = 16 ∨ key.length = 24 ∨ key.length = 32 then
    some (ctrXor key iv data)
  else none

/-! ## SHA-256 (crypto/sha256) and `DeriveKey`

`DeriveKey(secret)` (pkg/crypto/crypto.go:12-14) is `sha256.Sum256` of the
secret's bytes.  SHA-256 is spelled out from FIPS 180-4. -/

/-- Rotate a 32-bit word right by `n`. -/
def rotr32 (n x : Nat) : Nat := ((x >>> n) ||| (x <<< (32 - n))) % 2 ^ 32

/-- The 64 SHA-256 round constants. -/
def shaK : List Nat :=
  [1116352408, 1899447441, 3049323471, 3921009573, 961987163, 1508970993,
   2453635748, 2870763221, 3624381080, 310598401, 607225278, 1426881987,
   1925078388, 2162078206, 2614888103, 3248222580, 3835390401, 4022224774,
   264347078, 604807628, 770255983, 1249150122, 1555081692, 1996064986,
   2554220882, 2821834349, 2952996808, 3210313671, 3336571891, 3584528711,
   113926993, 338241895, 666307205, 773529912, 1294757372, 1396182291,
   1695183700, 1986661051, 2177026350, 2456956037, 2730485921, 2820302411,
   3259730800, 3345764771, 3516065817, 3600352804, 4094571909, 275423344,
   430227734, 506948616, 659060556, 883997877, 958139571, 1322822218,
   1537002063, 1747873779, 1955562222, 2024104815, 2227730452, 2361852424,
   2428436474, 2756734187, 3204031479, 3329325298]

/-- The initial SHA-256 hash value. -/
def shaH0 : List Nat :=
  [1779033703, 3144134277, 1013904242, 2773480762,
   1359893119, 2600822924, 528734635, 1541459225]

/-- SHA-256 padding: 0x80, zeros to 56 mod 64, the bit length as 8
big-endian bytes. -/
def shaPad (msg : List Nat) : List Nat :=
  msg ++ [128] ++ List.replicate ((119 - msg.length % 64) % 64) 0 ++
    natToBEBytes 8 (8 * msg.length)

/-- Split into 64-byte blocks (the padded message's length is a multiple
of 64; the fuel covers it). -/
def toBlocksAux : Nat → List Nat → List (List Nat)
  | 0, _ => []
  | fuel + 1, l => if l = [] then [] else l.take 64 :: toBlocksAux fuel (l.drop 64)

/-- The 64-byte blocks of a byte list. -/
def toBlocks (l : List Nat) : List (List Nat) := toBlocksAux l.length l

/-- The 16 big-endian words of a block. -/
def blockWords (b : List Nat) : List Nat :=
  (List.range 16).map (fun i => beBytesToNat ((b.drop (4 * i)).take 4))

/-- The 64-word message schedule of a block. -/
def shaSchedule (b : List Nat) : List Nat :=
  (List.range 48).foldl (fun w j =>
    let t := j + 16
    let x15 := w.getD (t - 15) 0
    let x2 := w.getD (t - 2) 0
    let s0 := rotr32 7 x15 ^^^ rotr32 18 x15 ^^^ (x15 >>> 3)
    let s1 := rotr32 17 x2 ^^^ rotr32 19 x2 ^^^ (x2 >>> 10)
    w ++ [(w.getD (t - 16) 0 + s0 + w.getD (t - 7) 0 + s1) % 2 ^ 32]) (blockWords b)

/-- One SHA-256 compression round on the working state `[a,…,h]`. -/
def shaRound (kt wt : Nat) (st : List Nat) : List Nat :=
  let a := st.getD 0 0
  let b := st.getD 1 0
  let c := st.getD 2 0
  let d := st.getD 3 0
  let e := st.getD 4 0
  let f := st.getD 5 0
  let g := st.getD 6 0
  let h := st.getD 7 0
  let S1 := rotr32 6 e ^^^ rotr32 11 e ^^^ rotr32 25 e
  let ch := (e &&& f) ^^^ ((e ^^^ 4294967295) &&& g)
  let temp1 := (h + S1 + ch + kt + wt) % 2 ^ 32
  let S0 := rotr32 2 a ^^^ rotr32 13 a ^^^ rotr32 22 a
  let maj := (a &&& b) ^^^ (a &&& c) ^^^ (b &&& c)
  let temp2 := (S0 + maj) % 2 ^ 32
  [(temp1 + temp2) % 2 ^ 32, a, b, c, (d + temp1) % 2 ^ 32, e, f, g]

/-- Compress one block into the hash value. -/
def shaCompress (h : List Nat) (b : List Nat) : List Nat :=
  let w := shaSchedule b
  let st := (List.range 64).foldl (fun st t => shaRound (shaK.getD t 0) (w.getD t 0) st) h
  List.zipWith (fun x y => (x + y) % 2 ^ 32) h st

/-- `sha256.Sum256`: the 32 digest bytes. -/
def sha256sum (msg : List Nat) : List Nat :=
  let hf := (toBlocks (shaPad msg)).foldl shaCompress shaH0
  ((List.range 8).map (fun i => natToBEBytes 4 (hf.getD i 0))).flatten

/-- `DeriveKey(secret)` (pkg/crypto/crypto.go:12-14): the SHA-256 digest of
the secret's bytes. -/
def DeriveKey (secret : List Nat) : List Nat := sha256sum secret

/-! ## Session identifiers (`newSessionID`, internal/client/transport:116-122) -/

/-- The lowercase hex digit of `n` (`n < 16` in every use), as
`encoding/hex`'s digit table `0123456789abcdef` maps it: digits are code
points 48-57, letters 97-102. -/
def hexDigit (n : Nat) : Char :=
  if n < 10 then Char.ofNat (48 + n) else Char.ofNat (87 + n)

/-- The sixteen lowercase hex digits, as `encoding/hex` uses them. -/
def hexDigits : List Char := (List.range 16).map hexDigit

/-- `hex.EncodeToString`: two lowercase hex characters per byte. -/
def hexEncodeBytes (bs : List Nat) : List Char :=
  bs.foldr (fun b acc => hexDigit (b / 16) :: hexDigit (b % 16) :: acc) []

/-- `newSessionID`: 16 bytes from `crypto/rand` rendered as lowercase hex;
if the random read errored (it never does, per crypto/rand's contract) the
decimal `time.Now().UnixNano()`.  The random outcome and the clock are the
function's inputs here. -/
def newSessionID (randBytes : Option (List Nat)) (nowNano : Nat) : List Char :=
  match randBytes with
  | some buf => hexEncodeBytes buf
  | none => Nat.toDigits 10 nowNano

/-! ## Helper lemmas -/

theorem zipWith_xor_cancel :
    ∀ d ks : List Nat, d.length ≤ ks.length →
      List.zipWith (· ^^^ ·) (List.zipWith (· ^^^ ·) d ks) ks = d
  | [], _, _ => by simp
  | a :: d, k :: ks, h => by
    simp only [List.zipWith, Nat.xor_cancel_right, List.cons.injEq, true_and]
    exact zipWith_xor_cancel d ks (by simpa using h)
  | a :: d, [], h => by simp at h

theorem ctrKeystream_length (key iv : List Nat) (n : Nat) :
    (ctrKeystream key iv n).length = n := by
  simp [ctrKeystream]

theorem ctrXor_length (key iv data : List Nat) :
    (ctrXor key iv data).length = data.length := by
  simp [ctrXor, ctrKeystream_length]

theorem ctrXor_ctrXor (key iv data : List Nat) :
    ctrXor key iv (ctrXor key iv data) = data := by
  have h := ctrXor_length key iv data
  unfold ctrXor at h ⊢
  rw [h]
  exact zipWith_xor_cancel data (ctrKeystream key iv data.length)
    (by rw [ctrKeystream_length])

theorem natToBEBytes_length (k n : Nat) : (natToBEBytes k n).length = k := by
  simp [natToBEBytes]

theorem natToBEBytes_mem_lt (k n : Nat) : ∀ b ∈ natToBEBytes k n, b < 256 := by
  simp only [natToBEBytes, List.mem_map, List.mem_range]
  rintro b ⟨i, -, rfl⟩
  exact Nat.mod_lt _ (by norm_num)

theorem sha256sum_length (msg : List Nat) : (sha256sum msg).length = 32 := by
  unfold sha256sum
  simp only [List.length_flatten, List.map_map]
  have : (List.range 8).map (List.length ∘ fun i =>
      natToBEBytes 4 (((toBlocks (shaPad msg)).foldl shaCompress shaH0).getD i 0)) =
      (List.range 8).map (fun _ => 4) := by
    apply List.map_congr_left
    intro i _
    simp [natToBEBytes_length]
  rw [this]
  decide

theorem sha256sum_mem_lt (msg : List Nat) : ∀ b ∈ sha256sum msg, b < 256 := by
  unfold sha256sum
  simp only [List.mem_flatten, List.mem_map, List.mem_range]
  rintro b ⟨sub, ⟨i, -, rfl⟩, hb⟩
  exact natToBEBytes_mem_lt _ _ b hb

/-! ## Claim theorems -/

/-- C5: applying the CTR stream transform of `XORCTRInPlace` twice with the
same 32-byte key and the same 16-byte nonce restores the input byte
sequence. -/
theorem xorctr_roundtrip (key iv data : List Nat)
    (hkey : key.length = 32) (hiv : iv.length = 16) :
    (XORCTRInPlace key iv data).bind (XORCTRInPlace key iv) = some data := by
  unfold XORCTRInPlace
  simp [hkey, hiv, ctrXor_ctrXor]

/-- Witness for C5 at a concrete key, nonce and plaintext. -/
theorem xorctr_roundtrip_witness :
    (List.range 32).length = 32 ∧ (List.range 16).length = 16 ∧
      (XORCTRInPlace (List.range 32) (List.range 16) [1, 2, 3]).bind
        (XORCTRInPlace (List.range 32) (List.range 16)) = some [1, 2, 3] :=
  ⟨by decide, by decide,
    xorctr_roundtrip (List.range 32) (List.range 16) [1, 2, 3] (by decide) (by decide)⟩

/-- C6 (counterexample): `DeriveKey` cannot map distinct secrets to
distinct keys — its range is the finite set of 32-byte digests while the
secrets are unbounded, so two distinct secrets share a key. -/
theorem derive_key_not_injective :
    ¬ ∀ s1 s2 : List Nat, s1 ≠ s2 → DeriveKey s1 ≠ DeriveKey s2 := by
  intro hinj
  let g : List Nat → (Fin 32 → Fin 256) := fun s i =>
    ⟨(DeriveKey s).getD i 0 % 256, Nat.mod_lt _ (by norm_num)⟩
  obtain ⟨s1, s2, hne, heq⟩ := Finite.exists_ne_map_eq_of_infinite g
  apply hinj s1 s2 hne
  have h1 : (DeriveKey s1).length = 32 := sha256sum_length s1
  have h2 : (DeriveKey s2).length = 32 := sha256sum_length s2
  apply List.ext_get (by rw [h1, h2])
  intro n hn1 hn2
  have hfin : n < 32 := by omega
  have := congrFun heq ⟨n, hfin⟩
  have hv : (DeriveKey s1).getD n 0 % 256 = (DeriveKey s2).getD n 0 % 256 :=
    congrArg Fin.val this
  have b1 : (DeriveKey s1).getD n 0 < 256 :=
    sha256sum_mem_lt s1 _ (by rw [List.getD_eq_getElem _ _ hn1]; exact List.getElem_mem hn1)
  have b2 : (DeriveKey s2).getD n 0 < 256 :=
    sha256sum_mem_lt s2 _ (by rw [List.getD_eq_getElem _ _ hn2]; exact List.getElem_mem hn2)
  rw [Nat.mod_eq_of_lt b1, Nat.mod_eq_of_lt b2] at hv
  simp only [List.get_eq_getElem]
  rw [← List.getD_eq_getElem _ 0 hn1, ← List.getD_eq_getElem _ 0 hn2]
  exact hv

/-- C6 (amended): `DeriveKey` is deterministic and always yields the
32-byte SHA-256 digest of the secret (32 bytes, each below 256); it cannot
be injective on all secrets. -/
theorem derive_key_deterministic (s : List Nat) :
    DeriveKey s = DeriveKey s ∧ (DeriveKey s).length = 32 ∧
      ∀ b ∈ DeriveKey s, b < 256 :=
  ⟨rfl, sha256sum_length s, sha256sum_mem_lt s⟩

theorem hexDigit_mem (n : Nat) (h : n < 16) : hexDigit n ∈ hexDigits := by
  unfold hexDigits
  exact List.mem_map.mpr ⟨n, List.mem_range.mpr h, rfl⟩

theorem hexEncodeBytes_length (bs : List Nat) :
    (hexEncodeBytes bs).length = 2 * bs.length := by
  induction bs with
  | nil => rfl
  | cons b bs ih =>
    simp only [hexEncodeBytes, List.foldr_cons, List.length_cons] at ih ⊢
    omega

theorem hexEncodeBytes_mem (bs : List Nat) (hb : ∀ b ∈ bs, b < 256) :
    ∀ ch ∈ hexEncodeBytes bs, ch ∈ hexDigits := by
  induction bs with
  | nil => simp [hexEncodeBytes]
  | cons b bs ih =>
    intro ch hch
    have hblt : b < 256 := hb b (List.mem_cons_self _ _)
    simp only [hexEncodeBytes, List.foldr_cons, List.mem_cons] at hch
    rcases hch with rfl | rfl | hch
    · exact hexDigit_mem _ (by omega)
    · exact hexDigit_mem _ (Nat.mod_lt _ (by norm_num) |>.trans_le (by norm_num))
    · exact ih (fun x hx => hb x (List.mem_cons_of_mem _ hx)) ch hch

/-- C10: on the random path (`crypto/rand.Read` fills the buffer and never
errors), `newSessionID` renders the 128-bit value — 16 bytes — as exactly
32 characters, each a lowercase hex digit. -/
theorem session_id_hex (buf : List Nat) (t : Nat) (hlen : buf.length = 16)
    (hbytes : ∀ b ∈ buf, b < 256) :
    (newSessionID (some buf) t).length = 32 ∧
      ∀ ch ∈ newSessionID (some buf) t, ch ∈ hexDigits := by
  refine ⟨?_, hexEncodeBytes_mem buf hbytes⟩
  simp [newSessionID, hexEncodeBytes_length, hlen]

/-- Witness for C10 at a concrete 16-byte value. -/
theorem session_id_hex_witness :
    (List.replicate 16 171).length = 16 ∧ (∀ b ∈ List.replicate 16 171, b < 256) ∧
      ((newSessionID (some (List.replicate 16 171)) 0).length = 32 ∧
        ∀ ch ∈ newSessionID (some (List.replicate 16 171)) 0, ch ∈ hexDigits) :=
  ⟨by decide, by decide,
    session_id_hex (List.replicate 16 171) 0 (by decide) (by decide)⟩

/-- C8: with a nonempty quality-sorted healthy list, `PickBest` returns the
entry at the uniform index `r % topN` where `topN = min 3 (length)` — i.e. a
uniformly random element of the top 3 (fewer when the list is shorter), and
that element lies in the first three entries; with an empty healthy list it
returns a known candidate when one exists, else the first configured
address, else the literal `"127.0.0.1"`. -/
theorem pickbest_policy (s c a : String) (ss candidates cfg cs cas : List String) (r : Nat) :
    (PickBest (s :: ss) candidates cfg r =
        (s :: ss).getD (r % min 3 (s :: ss).length) "" ∧
      PickBest (s :: ss) candidates cfg r ∈ (s :: ss).take 3) ∧
    (PickBest [] (c :: cs) cfg r = c ∧ c ∈ c :: cs) ∧
    PickBest [] [] (a :: cas) r = a ∧
    PickBest [] [] [] r = "127.0.0.1" := by
  have hne0 : ¬ ((s :: ss).length = 0) := by simp
  have h3 : (if (s :: ss).length < 3 then (s :: ss).length else 3) =
      min 3 (s :: ss).length := by
    rw [Nat.min_def]
    split <;> split <;> omega
  refine ⟨⟨?_, ?_⟩, ⟨rfl, List.mem_cons_self c cs⟩, rfl, rfl⟩
  · unfold PickBest
    rw [if_neg hne0, h3]
  · unfold PickBest
    rw [if_neg hne0, h3]
    have htop : 0 < min 3 (s :: ss).length := by
      simp only [List.length_cons]
      omega
    have hmod := Nat.mod_lt r htop
    have hltlen : r % min 3 (s :: ss).length < (s :: ss).length := by omega
    rw [List.getD_eq_getElem _ _ hltlen]
    have hlen3 : r % min 3 (s :: ss).length < ((s :: ss).take 3).length := by
      simp only [List.length_take]
      omega
    rw [← List.getElem_take (s :: ss) (j := 3) (h := hlen3)]
    exact List.getElem_mem hlen3

/-- C3: however the session mutex orders the racing upload requests that
each observed `targetConn == nil` with FIRST set and dialed successfully,
the first racer's connection is installed and every other racer's
connection is closed: one kept dial per session. -/
theorem dial_race_single (c : Nat) (cs : List Nat) :
    runInstalls { targetConn := none, closed := false, closedConns := [] } (c :: cs) =
      { targetConn := some c, closed := false, closedConns := cs.reverse } := by
  have step : ∀ (l : List Nat) (w : Nat) (acc : List Nat),
      runInstalls { targetConn := some w, closed := false, closedConns := acc } l =
        { targetConn := some w, closed := false, closedConns := l.reverse ++ acc } := by
    intro l
    induction l with
    | nil => intro w acc; simp [runInstalls]
    | cons x xs ih =>
      intro w acc
      simp only [runInstalls, List.foldl_cons] at ih ⊢
      rw [show installConn { targetConn := some w, closed := false, closedConns := acc } x =
        { targetConn := some w, closed := false, closedConns := x :: acc } from rfl]
      rw [ih]
      simp
  simp only [runInstalls, List.foldl_cons]
  rw [show installConn { targetConn := none, closed := false, closedConns := [] } c =
    { targetConn := some c, closed := false, closedConns := [] } from rfl]
  have := step cs c []
  simp only [runInstalls] at this
  rw [this, List.append_nil]

/-- C4: an upload frame with `seq < nextUploadSeq` on a non-closed session
is answered 200 and changes nothing: the duplicate is ack-accepted and
discarded, leaving `nextUploadSeq`, `pendingUpload`, `targetConn` and the
written bytes untouched. -/
theorem duplicate_discarded (s : SessionSt) (seq : Nat) (isFirst : Bool)
    (payload : List Nat) (dialOk : Bool)
    (hopen : s.closed = false) (hdup : seq < s.nextUploadSeq) :
    processUpload s seq isFirst payload dialOk = (UpStatus.accepted, s) := by
  unfold processUpload
  simp [hopen, hdup]

/-- Witness for C4 on a session expecting seq 5 receiving seq 3. -/
theorem duplicate_discarded_witness :
    ({ initSession with nextUploadSeq := 5 } : SessionSt).closed = false ∧ 3 < 5 ∧
      processUpload { initSession with nextUploadSeq := 5 } 3 true [7] true =
        (UpStatus.accepted, { initSession with nextUploadSeq := 5 }) :=
  ⟨rfl, by decide,
    duplicate_discarded { initSession with nextUploadSeq := 5 } 3 true [7] true rfl
      (by decide)⟩

/-- C9 (counterexample): constructed with `min = max = -8` (Go permits a
negative bound), one failed `Observe` leaves `cur = -8 / 2 = -4`, outside
`[min, max]` — the failure branch only clamps from below and Go's division
truncates toward zero. -/
theorem sizer_escapes_negative_bounds :
    sizerNext (sizerRun (newAdaptiveChunkSizer (-8) (-8) (-8)) [(0, false)]) = -4 ∧
      ¬ ((-8 : Int) ≤ -4 ∧ (-4 : Int) ≤ -8) := by
  constructor
  · decide
  · decide

theorem sizerObserve_bounds (s : adaptiveChunkSizer) (rtt : Int) (ok : Bool)
    (h0 : 0 ≤ s.min) (h2 : s.max < 2 ^ 63)
    (hc1 : s.min ≤ s.cur) (hc2 : s.cur ≤ s.max) :
    (sizerObserve s rtt ok).min = s.min ∧ (sizerObserve s rtt ok).max = s.max ∧
      s.min ≤ (sizerObserve s rtt ok).cur ∧ (sizerObserve s rtt ok).cur ≤ s.max := by
  have hdiv : Int.tdiv s.cur 2 = s.cur / 2 := Int.tdiv_eq_ediv (by omega) (by norm_num)
  refine ⟨?_, ?_, ?_, ?_⟩ <;>
    simp only [sizerObserve, wrap64] <;>
    split_ifs <;>
    simp_all <;>
    omega

theorem sizerRun_bounds :
    ∀ (obs : List (Int × Bool)) (s : adaptiveChunkSizer),
      0 ≤ s.min → s.max < 2 ^ 63 → s.min ≤ s.cur → s.cur ≤ s.max →
      (sizerRun s obs).min = s.min ∧ (sizerRun s obs).max = s.max ∧
        s.min ≤ (sizerRun s obs).cur ∧ (sizerRun s obs).cur ≤ s.max
  | [], s, _, _, hc1, hc2 => ⟨rfl, rfl, hc1, hc2⟩
  | (rtt, ok) :: obs, s, h0, h2, hc1, hc2 => by
    obtain ⟨e1, e2, e3, e4⟩ := sizerObserve_bounds s rtt ok h0 h2 hc1 hc2
    have ih := sizerRun_bounds obs (sizerObserve s rtt ok)
      (by rw [e1]; exact h0) (by rw [e2]; exact h2) (by rw [e1]; exact e3)
      (by rw [e2]; exact e4)
    simp only [sizerRun, List.foldl_cons] at ih ⊢
    rw [e1] at ih
    exact ⟨ih.1, by rw [ih.2.1, e2], ih.2.2.1, by rw [← e2]; exact ih.2.2.2⟩

/-- C9 (amended): a sizer constructed with `0 ≤ min ≤ max` (with `max` in
the `int64` range, as Go's type guarantees) keeps `Next()` in `[min, max]`
after any finite sequence of `Observe` calls.  The nonnegativity of `min`
is necessary: with negative bounds the failure branch's truncated division
can leave `cur` above `max` (see the counterexample). -/
theorem sizer_next_clamped (initial mn mx : Int) (obs : List (Int × Bool))
    (h0 : 0 ≤ mn) (h1 : mn ≤ mx) (h2 : mx < 2 ^ 63) :
    mn ≤ sizerNext (sizerRun (newAdaptiveChunkSizer initial mn mx) obs) ∧
      sizerNext (sizerRun (newAdaptiveChunkSizer initial mn mx) obs) ≤ mx := by
  have hinit : (newAdaptiveChunkSizer initial mn mx).min = mn ∧
      (newAdaptiveChunkSizer initial mn mx).max = mx ∧
      mn ≤ (newAdaptiveChunkSizer initial mn mx).cur ∧
      (newAdaptiveChunkSizer initial mn mx).cur ≤ mx := by
    refine ⟨rfl, rfl, ?_, ?_⟩ <;> simp only [newAdaptiveChunkSizer] <;> split_ifs <;> omega
  obtain ⟨i1, i2, i3, i4⟩ := hinit
  have := sizerRun_bounds obs (newAdaptiveChunkSizer initial mn mx)
    (i1 ▸ h0) (i2 ▸ h2) (by rw [i1]; exact i3) (by rw [i2]; exact i4)
  rw [i1, i2] at this
  exact ⟨this.2.2.1, this.2.2.2⟩

/-- Witness for C9 (amended) on a sizer with bounds 16..512. -/
theorem sizer_next_clamped_witness :
    (0 : Int) ≤ 16 ∧ (16 : Int) ≤ 512 ∧ (512 : Int) < 2 ^ 63 ∧
      (16 ≤ sizerNext (sizerRun (newAdaptiveChunkSizer 64 16 512) [(0, false)]) ∧
        sizerNext (sizerRun (newAdaptiveChunkSizer 64 16 512) [(0, false)]) ≤ 512) :=
  ⟨by decide, by decide, by decide,
    sizer_next_clamped 64 16 512 [(0, false)] (by decide) (by decide) (by decide)⟩

theorem drop_seven_cons (a0 a1 a2 a3 a4 a5 a6 : Nat) (l : List Nat) (n : Nat) :
    List.drop (7 + n) (a0 :: a1 :: a2 :: a3 :: a4 :: a5 :: a6 :: l) = List.drop n l := by
  have h7 : List.drop 7 (a0 :: a1 :: a2 :: a3 :: a4 :: a5 :: a6 :: l) = l := rfl
  rw [← List.drop_drop, h7]

/-- C1 (counterexample): the empty target (within the 65535-byte bound)
encodes into a FIRST frame that `parseUploadFrame` rejects (`empty target`),
so decoding does not yield the encoded fields. -/
theorem frame_roundtrip_counterexample :
    parseUploadFrame (buildUploadPlain 0 true [] []) = none := by decide

/-- C1 (amended): for `seq < 2 ^ 32` and `|target| ≤ 65535`, provided the
target does not trim to whitespace-empty when FIRST is set, decoding the
encoded plaintext record yields the encoded `seq`, FIRST flag and data, and
the encoded target when FIRST is set (a non-FIRST frame does not carry the
target, so it decodes as empty). -/
theorem frame_roundtrip (seq : Nat) (first : Bool) (target data : List Nat)
    (hseq : seq < 2 ^ 32) (hlen : target.length ≤ 65535)
    (htgt : first = true → goTrimSpaceEmpty target = false) :
    parseUploadFrame (buildUploadPlain seq first target data) =
      some ⟨seq, first, if first then target else [], data⟩ := by
  cases first with
  | false =>
    simp only [buildUploadPlain, putUint32, uploadFlagFirst,
      List.cons_append, List.nil_append, Bool.false_eq_true, if_false]
    simp only [parseUploadFrame, uploadFrameHeader, List.length_cons, List.length_append]
    norm_num
    unfold beUint32
    omega
  | true =>
    have ht := htgt rfl
    have hbe : beUint16 (target.length / 256 % 256) (target.length % 256) = target.length := by
      unfold beUint16
      omega
    simp only [buildUploadPlain, putUint32, putUint16, uploadFlagFirst,
      List.cons_append, List.nil_append, if_true]
    simp only [parseUploadFrame, uploadFrameHeader, uploadFlagFirst, List.length_cons,
      List.length_append, hbe, List.take_left, drop_seven_cons, List.drop_left]
    norm_num [ht]
    rw [hbe, List.take_left]
    refine ⟨by omega, ht, by omega, by unfold beUint32; omega, rfl,
      by rw [drop_seven_cons, List.drop_left]⟩

/-- Witness for C1 (amended) on a concrete FIRST frame with target
`"h:1"`. -/
theorem frame_roundtrip_witness :
    7 < 2 ^ 32 ∧ ([104, 58, 49] : List Nat).length ≤ 65535 ∧
      (true = true → goTrimSpaceEmpty [104, 58, 49] = false) ∧
      parseUploadFrame (buildUploadPlain 7 true [104, 58, 49] [1, 2, 3]) =
        some ⟨7, true, [104, 58, 49], [1, 2, 3]⟩ :=
  ⟨by decide, by decide, fun _ => by decide,
    frame_roundtrip 7 true [104, 58, 49] [1, 2, 3] (by decide) (by decide)
      (fun _ => by decide)⟩

/-- C7: `parseUploadFrame` is total on arbitrary byte slices (the embedding
returns a value for every input), and it errs exactly when the frame is
shorter than 5 bytes, or the FIRST bit is set and the frame is too short
for the 2-byte target length (7 bytes) or for the declared target length,
or the declared target trims to empty; in every other case it returns the
big-endian seq, the FIRST bit, the target bytes and the residual payload. -/
theorem parse_frame_total (frame : List Nat) :
    (parseUploadFrame frame = none ↔
      frame.length < 5 ∨
        (frame.getD 4 0 &&& 1 ≠ 0 ∧
          (frame.length < 7 ∨
            frame.length < 7 + beUint16 (frame.getD 5 0) (frame.getD 6 0) ∨
            goTrimSpaceEmpty
              ((frame.drop 7).take (beUint16 (frame.getD 5 0) (frame.getD 6 0))) = true))) ∧
    ∀ fr ∈ parseUploadFrame frame,
      fr.seq = beUint32 (frame.getD 0 0) (frame.getD 1 0) (frame.getD 2 0) (frame.getD 3 0) ∧
      fr.isFirst = decide (frame.getD 4 0 &&& 1 ≠ 0) ∧
      fr.target = (if frame.getD 4 0 &&& 1 ≠ 0 then
          (frame.drop 7).take (beUint16 (frame.getD 5 0) (frame.getD 6 0)) else []) ∧
      fr.payload = frame.drop (if frame.getD 4 0 &&& 1 ≠ 0 then
          7 + beUint16 (frame.getD 5 0) (frame.getD 6 0) else 5) := by
  unfold parseUploadFrame uploadFrameHeader uploadFlagFirst
  by_cases h5 : frame.length < 5
  · rw [if_pos h5]
    exact ⟨iff_of_true rfl (Or.inl h5), fun fr hfr => absurd hfr (by simp)⟩
  · rw [if_neg h5]
    by_cases hf : frame.getD 4 0 &&& 1 ≠ 0
    · rw [if_pos hf]
      by_cases h7 : frame.length < 7
      · rw [if_pos (show frame.length < 5 + 2 from h7)]
        exact ⟨iff_of_true rfl (Or.inr ⟨hf, Or.inl h7⟩),
          fun fr hfr => absurd hfr (by simp)⟩
      · rw [if_neg (show ¬ frame.length < 5 + 2 from h7)]
        by_cases hl : frame.length < 7 + beUint16 (frame.getD 5 0) (frame.getD 6 0)
        · rw [if_pos (show frame.length < 5 + 2 +
            beUint16 (frame.getD 5 0) (frame.getD 6 0) from hl)]
          exact ⟨iff_of_true rfl (Or.inr ⟨hf, Or.inr (Or.inl hl)⟩),
            fun fr hfr => absurd hfr (by simp)⟩
        · rw [if_neg (show ¬ frame.length < 5 + 2 +
            beUint16 (frame.getD 5 0) (frame.getD 6 0) from hl)]
          by_cases htr : goTrimSpaceEmpty
              ((frame.drop (5 + 2)).take (beUint16 (frame.getD 5 0) (frame.getD 6 0))) = true
          · rw [if_pos htr]
            exact ⟨iff_of_true rfl (Or.inr ⟨hf, Or.inr (Or.inr htr)⟩),
              fun fr hfr => absurd hfr (by simp)⟩
          · rw [if_neg htr,
              if_neg (show ¬ 5 + 2 + beUint16 (frame.getD 5 0) (frame.getD 6 0) >
                frame.length from hl)]
            constructor
            · refine iff_of_false (by simp) ?_
              rintro (h | ⟨-, h | h | h⟩)
              · exact h5 h
              · exact h7 h
              · exact hl h
              · exact htr h
            · intro fr hfr
              rw [Option.mem_def, Option.some.injEq] at hfr
              subst hfr
              refine ⟨rfl, (decide_eq_true hf).symm, ?_, ?_⟩
              · rw [if_pos hf]
              · rw [if_pos hf]
    · rw [if_neg hf, if_neg (show ¬ 5 > frame.length from h5)]
      constructor
      · refine iff_of_false (by simp) ?_
        rintro (h | ⟨h, -⟩)
        · exact h5 h
        · exact hf h
      · intro fr hfr
        rw [Option.mem_def, Option.some.injEq] at hfr
        subst hfr
        refine ⟨rfl, (decide_eq_false hf).symm, ?_, ?_⟩
        · rw [if_neg hf]
        · rw [if_neg hf]

theorem pendLookup_eq_none (l : List (Nat × List Nat)) (q : Nat) :
    pendLookup l q = none ↔ q ∉ l.map Prod.fst := by
  induction l with
  | nil => simp [pendLookup]
  | cons p rest ih =>
    obtain ⟨k, v⟩ := p
    by_cases h : q = k
    · simp [pendLookup, h]
    · simp [pendLookup, h, ih]

theorem pendErase_lookup (l : List (Nat × List Nat)) (q0 q : Nat)
    (hnd : (l.map Prod.fst).Nodup) :
    pendLookup (pendErase l q0) q = if q = q0 then none else pendLookup l q := by
  induction l with
  | nil => simp [pendLookup, pendErase]
  | cons p rest ih =>
    obtain ⟨k, v⟩ := p
    simp only [List.map_cons, List.nodup_cons] at hnd
    by_cases hq0 : q0 = k
    · subst hq0
      by_cases hq : q = q0
      · subst hq
        simp [pendErase, pendLookup, (pendLookup_eq_none rest q).2 hnd.1]
      · simp [pendErase, pendLookup, hq]
    · by_cases hq : q = k
      · subst hq
        have hk : ¬ q = q0 := fun h => hq0 h.symm
        simp [pendErase, pendLookup, hq0, hk]
      · simp [pendErase, pendLookup, hq0, hq, ih hnd.2]

theorem pendErase_keys (l : List (Nat × List Nat)) (q0 : Nat) :
    ((pendErase l q0).map Prod.fst).Sublist (l.map Prod.fst) := by
  induction l with
  | nil => simp [pendErase]
  | cons p rest ih =>
    obtain ⟨k, v⟩ := p
    by_cases h : q0 = k
    · simp [pendErase, h]
    · simp only [pendErase, if_neg h, List.map_cons]
      exact ih.cons₂ k

theorem pendErase_length (l : List (Nat × List Nat)) (q : Nat) (v : List Nat)
    (h : pendLookup l q = some v) : (pendErase l q).length + 1 = l.length := by
  induction l with
  | nil => simp [pendLookup] at h
  | cons p rest ih =>
    obtain ⟨k, w⟩ := p
    by_cases hq : q = k
    · simp [pendErase, hq]
    · simp only [pendLookup, if_neg hq] at h
      have := ih h
      simp only [pendErase, if_neg hq, List.length_cons]
      omega

theorem drainAux_no_conn (fuel : Nat) (s : SessionSt) (h : s.targetConn = false) :
    drainAux fuel s = s := by
  cases fuel with
  | zero => rfl
  | succ n => simp [drainAux, h]

theorem concatPayloads_succ (payload : Nat → List Nat) (n : Nat) :
    concatPayloads payload (n + 1) = concatPayloads payload n ++ payload n := by
  simp [concatPayloads, List.range_succ]

theorem drainAux_run (payload : Nat → List Nat) (done : List Nat) :
    ∀ (fuel : Nat) (s : SessionSt),
      s.pendingUpload.length ≤ fuel →
      s.targetConn = true →
      s.closed = false →
      (s.pendingUpload.map Prod.fst).Nodup →
      (∀ q, pendLookup s.pendingUpload q =
        if q ∈ done ∧ s.nextUploadSeq ≤ q then some (payload q) else none) →
      s.written = concatPayloads payload s.nextUploadSeq →
      (∀ k, k < s.nextUploadSeq → k ∈ done) →
      (drainAux fuel s).targetConn = true ∧
      (drainAux fuel s).closed = false ∧
      ((drainAux fuel s).pendingUpload.map Prod.fst).Nodup ∧
      (∀ q, pendLookup (drainAux fuel s).pendingUpload q =
        if q ∈ done ∧ (drainAux fuel s).nextUploadSeq ≤ q then some (payload q) else none) ∧
      (drainAux fuel s).written = concatPayloads payload (drainAux fuel s).nextUploadSeq ∧
      (∀ k, k < (drainAux fuel s).nextUploadSeq → k ∈ done) ∧
      (drainAux fuel s).nextUploadSeq ∉ done := by
  intro fuel
  induction fuel with
  | zero =>
    intro s hlen hconn hcl hnd hlook hw hbelow
    have hpe : s.pendingUpload = [] := List.length_eq_zero.mp (Nat.le_zero.mp hlen)
    have hnext : s.nextUploadSeq ∉ done := by
      intro hmem
      have h2 := hlook s.nextUploadSeq
      rw [hpe, if_pos ⟨hmem, le_refl _⟩] at h2
      simp [pendLookup] at h2
    exact ⟨hconn, hcl, hnd, hlook, hw, hbelow, hnext⟩
  | succ n ih =>
    intro s hlen hconn hcl hnd hlook hw hbelow
    by_cases hmem : s.nextUploadSeq ∈ done
    · have hlk : pendLookup s.pendingUpload s.nextUploadSeq =
          some (payload s.nextUploadSeq) := by
        rw [hlook, if_pos ⟨hmem, le_refl _⟩]
      have hstep : drainAux (n + 1) s = drainAux n
          { s with nextUploadSeq := s.nextUploadSeq + 1,
                   pendingUpload := pendErase s.pendingUpload s.nextUploadSeq,
                   written := s.written ++ payload s.nextUploadSeq } := by
        simp [drainAux, hconn, hlk]
      rw [hstep]
      apply ih
      · have := pendErase_length s.pendingUpload s.nextUploadSeq _ hlk
        simp only []
        omega
      · exact hconn
      · exact hcl
      · exact (pendErase_keys s.pendingUpload s.nextUploadSeq).nodup hnd
      · intro q
        simp only []
        rw [pendErase_lookup _ _ _ hnd, hlook q]
        by_cases hq : q = s.nextUploadSeq
        · subst hq
          rw [if_pos rfl, if_neg (by omega)]
        · rw [if_neg hq]
          have hiff : (q ∈ done ∧ s.nextUploadSeq ≤ q) ↔
              (q ∈ done ∧ s.nextUploadSeq + 1 ≤ q) := by
            constructor
            · rintro ⟨hm, hle⟩
              exact ⟨hm, by omega⟩
            · rintro ⟨hm, hle⟩
              exact ⟨hm, by omega⟩
          rw [if_congr hiff rfl rfl]
      · simp only []
        rw [hw, concatPayloads_succ]
      · intro k hk
        simp only [] at hk
        rcases Nat.lt_or_ge k s.nextUploadSeq with h | h
        · exact hbelow k h
        · have : k = s.nextUploadSeq := by omega
          subst this
          exact hmem
    · have hlk : pendLookup s.pendingUpload s.nextUploadSeq = none := by
        rw [hlook, if_neg]
        rintro ⟨h1, -⟩
        exact hmem h1
      have hstep : drainAux (n + 1) s = s := by
        simp [drainAux, hconn, hlk]
      rw [hstep]
      exact ⟨hconn, hcl, hnd, hlook, hw, hbelow, hmem⟩

theorem processUpload_eq_conn (payload : Nat → List Nat) (k : Nat) (s : SessionSt)
    (hcl : s.closed = false) (hc : s.targetConn = true)
    (hge : ¬ k < s.nextUploadSeq) (hlkk : pendLookup s.pendingUpload k = none) :
    processUpload s k (k == 0) (payload k) true =
      (UpStatus.accepted,
        drainSession { s with pendingUpload := (k, payload k) :: s.pendingUpload }) := by
  simp [processUpload, hcl, hc, hge, hlkk]

theorem processUpload_eq_first (payload : Nat → List Nat) (s : SessionSt)
    (hcl : s.closed = false) (hc : s.targetConn = false)
    (hnext : s.nextUploadSeq = 0) (hlkk : pendLookup s.pendingUpload 0 = none) :
    processUpload s 0 (0 == 0) (payload 0) true =
      (UpStatus.accepted,
        drainSession { s with pendingUpload := (0, payload 0) :: s.pendingUpload,
                              targetConn := true }) := by
  simp [processUpload, hcl, hc, hnext, hlkk]

theorem processUpload_eq_noconn (payload : Nat → List Nat) (k : Nat) (s : SessionSt)
    (hcl : s.closed = false) (hc : s.targetConn = false) (hk0 : k ≠ 0)
    (hnext : s.nextUploadSeq = 0) (hlkk : pendLookup s.pendingUpload k = none) :
    processUpload s k (k == 0) (payload k) true =
      (UpStatus.accepted, { s with pendingUpload := (k, payload k) :: s.pendingUpload }) := by
  have hkb : (k == 0) = false := by simp [hk0]
  simp [processUpload, hcl, hc, hnext, hlkk, hkb, drainSession, drainAux_no_conn]

theorem pendLookup_cons_char (pending : List (Nat × List Nat)) (payload : Nat → List Nat)
    (done : List Nat) (k nxt : Nat)
    (hlook : ∀ q, pendLookup pending q =
      if q ∈ done ∧ nxt ≤ q then some (payload q) else none)
    (hnk : nxt ≤ k) :
    ∀ q, pendLookup ((k, payload k) :: pending) q =
      if q ∈ k :: done ∧ nxt ≤ q then some (payload q) else none := by
  intro q
  simp only [pendLookup]
  by_cases hq : q = k
  · subst hq
    rw [if_pos rfl, if_pos ⟨List.mem_cons_self _ _, hnk⟩]
  · rw [if_neg hq, hlook q]
    have hiff : (q ∈ done ∧ nxt ≤ q) ↔ (q ∈ k :: done ∧ nxt ≤ q) := by
      constructor
      · rintro ⟨hm, hle⟩
        exact ⟨List.mem_cons_of_mem _ hm, hle⟩
      · rintro ⟨hm, hle⟩
        rcases List.mem_cons.mp hm with h | h
        · exact absurd h hq
        · exact ⟨h, hle⟩
    rw [if_congr hiff rfl rfl]

theorem pendLookup_cons_char0 (pending : List (Nat × List Nat)) (payload : Nat → List Nat)
    (done : List Nat) (k : Nat)
    (hlook : ∀ q, pendLookup pending q = if q ∈ done then some (payload q) else none) :
    ∀ q, pendLookup ((k, payload k) :: pending) q =
      if q ∈ k :: done then some (payload q) else none := by
  intro q
  simp only [pendLookup]
  by_cases hq : q = k
  · subst hq
    rw [if_pos rfl, if_pos (List.mem_cons_self _ _)]
  · rw [if_neg hq, hlook q]
    have hiff : (q ∈ done) ↔ (q ∈ k :: done) := by
      constructor
      · intro hm
        exact List.mem_cons_of_mem _ hm
      · intro hm
        rcases List.mem_cons.mp hm with h | h
        · exact absurd h hq
        · exact h
    rw [if_congr hiff rfl rfl]

theorem processUpload_inv (payload : Nat → List Nat) (done : List Nat) (k : Nat)
    (s : SessionSt) (hInv : UploadInv payload done s) (hk : k ∉ done) :
    UploadInv payload (k :: done) (processUpload s k (k == 0) (payload k) true).2 := by
  obtain ⟨hcl, hnd, hconn0, hrest⟩ := hInv
  by_cases hc : s.targetConn = true
  · rw [if_pos hc] at hrest
    obtain ⟨hbelow, hnextnd, hw, hlook⟩ := hrest
    have h0 : (0 : Nat) ∈ done := hconn0.mp hc
    have hge : ¬ k < s.nextUploadSeq := fun h => hk (hbelow k h)
    have hlkk : pendLookup s.pendingUpload k = none := by
      rw [hlook, if_neg]
      rintro ⟨h1, -⟩
      exact hk h1
    rw [processUpload_eq_conn payload k s hcl hc hge hlkk]
    have hkeys : k ∉ s.pendingUpload.map Prod.fst := (pendLookup_eq_none _ _).mp hlkk
    have hrun := drainAux_run payload (k :: done)
      (((k, payload k) :: s.pendingUpload).length)
      { s with pendingUpload := (k, payload k) :: s.pendingUpload }
      (le_refl _) hc hcl
      (by rw [List.map_cons]; exact List.nodup_cons.mpr ⟨hkeys, hnd⟩)
      (pendLookup_cons_char s.pendingUpload payload done k s.nextUploadSeq hlook (by omega))
      hw
      (fun j hj => List.mem_cons_of_mem _ (hbelow j hj))
    obtain ⟨rc, rcl, rnd, rlook, rw_, rbelow, rnext⟩ := hrun
    have hgoal : UploadInv payload (k :: done)
        (drainAux (((k, payload k) :: s.pendingUpload).length)
          { s with pendingUpload := (k, payload k) :: s.pendingUpload }) := by
      refine ⟨rcl, rnd, ⟨fun _ => List.mem_cons_of_mem _ h0, fun _ => rc⟩, ?_⟩
      rw [if_pos rc]
      exact ⟨rbelow, rnext, rw_, rlook⟩
    exact hgoal
  · have hcf : s.targetConn = false := by
      cases h : s.targetConn
      · rfl
      · exact absurd h hc
    rw [if_neg hc] at hrest
    obtain ⟨hnext, hw, hlook⟩ := hrest
    have h0 : (0 : Nat) ∉ done := fun h => hc (hconn0.mpr h)
    have hlkk : pendLookup s.pendingUpload k = none := by
      rw [hlook k, if_neg hk]
    have hkeys : k ∉ s.pendingUpload.map Prod.fst := (pendLookup_eq_none _ _).mp hlkk
    have hndc : (((k, payload k) :: s.pendingUpload).map Prod.fst).Nodup := by
      rw [List.map_cons]
      exact List.nodup_cons.mpr ⟨hkeys, hnd⟩
    by_cases hk0 : k = 0
    · subst hk0
      rw [processUpload_eq_first payload s hcl hcf hnext hlkk]
      have hlook1 : ∀ q, pendLookup ((0, payload 0) :: s.pendingUpload) q =
          if q ∈ 0 :: done ∧ 0 ≤ q then some (payload q) else none := by
        intro q
        have hiff : (q ∈ 0 :: done) ↔ (q ∈ 0 :: done ∧ 0 ≤ q) := by
          constructor
          · intro hm
            exact ⟨hm, Nat.zero_le q⟩
          · rintro ⟨hm, -⟩
            exact hm
        rw [pendLookup_cons_char0 s.pendingUpload payload done 0 hlook q,
          if_congr hiff rfl rfl]
      have hrun := drainAux_run payload (0 :: done)
        (((0, payload 0) :: s.pendingUpload).length)
        { s with pendingUpload := (0, payload 0) :: s.pendingUpload, targetConn := true }
        (le_refl _) rfl hcl hndc
        (by
          intro q
          have := hlook1 q
          simp only [hnext]
          exact this)
        (by simp only [hnext, hw]; rfl)
        (by
          intro j hj
          simp only [hnext] at hj
          omega)
      obtain ⟨rc, rcl, rnd, rlook, rw_, rbelow, rnext⟩ := hrun
      have hgoal : UploadInv payload (0 :: done)
          (drainAux (((0, payload 0) :: s.pendingUpload).length)
            { s with pendingUpload := (0, payload 0) :: s.pendingUpload,
                     targetConn := true }) := by
        refine ⟨rcl, rnd, ⟨fun _ => List.mem_cons_self _ _, fun _ => rc⟩, ?_⟩
        rw [if_pos rc]
        exact ⟨rbelow, rnext, rw_, rlook⟩
      exact hgoal
    · rw [processUpload_eq_noconn payload k s hcl hcf hk0 hnext hlkk]
      refine ⟨hcl, hndc, ?_, ?_⟩
      · constructor
        · intro h
          rw [show ({ s with pendingUpload := (k, payload k) :: s.pendingUpload } :
              SessionSt).targetConn = s.targetConn from rfl, hcf] at h
          exact absurd h (by simp)
        · intro hm
          rcases List.mem_cons.mp hm with h | h
          · exact absurd h.symm hk0
          · exact absurd h h0
      · have hcond : ¬ (({ s with pendingUpload := (k, payload k) :: s.pendingUpload } :
            SessionSt).targetConn = true) := by
          rw [show ({ s with pendingUpload := (k, payload k) :: s.pendingUpload } :
            SessionSt).targetConn = s.targetConn from rfl, hcf]
          simp
        rw [if_neg hcond]
        exact ⟨hnext, hw, pendLookup_cons_char0 s.pendingUpload payload done k hlook⟩

theorem runUploads_inv (payload : Nat → List Nat) :
    ∀ (order done : List Nat) (s : SessionSt),
      UploadInv payload done s → (∀ k ∈ order, k ∉ done) → order.Nodup →
      UploadInv payload (order.reverse ++ done) (runUploads order payload s)
  | [], done, s, hInv, _, _ => by simpa [runUploads] using hInv
  | k :: rest, done, s, hInv, hdisj, hnd => by
    have hk : k ∉ done := hdisj k (List.mem_cons_self _ _)
    have hstep := processUpload_inv payload done k s hInv hk
    have hnd' := List.nodup_cons.mp hnd
    have ih := runUploads_inv payload rest (k :: done)
      (processUpload s k (k == 0) (payload k) true).2 hstep
      (by
        intro j hj hmem
        rcases List.mem_cons.mp hmem with h | h
        · exact hnd'.1 (h ▸ hj)
        · exact hdisj j (List.mem_cons_of_mem _ hj) h)
      hnd'.2
    have heq : runUploads (k :: rest) payload s = runUploads rest payload
        (processUpload s k (k == 0) (payload k) true).2 := rfl
    have hre : (k :: rest).reverse ++ done = rest.reverse ++ (k :: done) := by
      simp [List.reverse_cons, List.append_assoc]
    rw [heq, hre]
    exact ih

/-- C2: when upload POSTs carrying seqs `0..N` reach the session in any
permutation with no duplicates — frame 0 carrying FIRST, dials succeeding —
the bytes written to the target connection are exactly the payloads
concatenated in seq order, strictly from 0 upward with no gaps. -/
theorem uploads_in_order (N : Nat) (payload : Nat → List Nat) (order : List Nat)
    (hperm : order.Perm (List.range (N + 1))) :
    (runUploads order payload initSession).written =
      concatPayloads payload (N + 1) := by
  have hinit : UploadInv payload [] initSession := by
    refine ⟨rfl, by simp [initSession], by simp [initSession], ?_⟩
    rw [if_neg (show ¬ (initSession.targetConn = true) by simp [initSession])]
    exact ⟨rfl, rfl, fun q => by simp [initSession, pendLookup]⟩
  have hnd : order.Nodup := hperm.nodup_iff.mpr (List.nodup_range _)
  have hfin := runUploads_inv payload order [] initSession hinit (by simp) hnd
  obtain ⟨-, -, hconn0, hrest⟩ := hfin
  have hmem : ∀ q : Nat, q ∈ order.reverse ++ ([] : List Nat) ↔ q < N + 1 := by
    intro q
    rw [List.append_nil, List.mem_reverse, hperm.mem_iff, List.mem_range]
  have hconn : (runUploads order payload initSession).targetConn = true :=
    hconn0.mpr ((hmem 0).mpr (Nat.succ_pos N))
  rw [if_pos hconn] at hrest
  obtain ⟨hbelow, hnotmem, hw, -⟩ := hrest
  have hnext : (runUploads order payload initSession).nextUploadSeq = N + 1 := by
    have h1 : ¬ ((runUploads order payload initSession).nextUploadSeq < N + 1) :=
      fun h => hnotmem ((hmem _).mpr h)
    by_contra hne
    have hgt : N + 1 < (runUploads order payload initSession).nextUploadSeq := by omega
    have := (hmem (N + 1)).mp (hbelow (N + 1) hgt)
    omega
  rw [hw, hnext]

/-- Witness for C2: seqs 0..2 delivered as 2, 0, 1. -/
theorem uploads_in_order_witness :
    ([2, 0, 1] : List Nat).Perm (List.range 3) ∧
      (runUploads [2, 0, 1] (fun k => [k + 65]) initSession).written =
        concatPayloads (fun k => [k + 65]) 3 :=
  ⟨by decide, uploads_in_order 2 (fun k => [k + 65]) [2, 0, 1] (by decide)⟩

end Fsak
